import Mathlib

/-!
Verification development for the CUTE vertical-stability scan driver
(`CUTE_VDE_ex.ipynb`) and the equilibrium/stability engine it drives.

The driver-side definitions (`zposVals`, `argmaxAbs`, `eig_sign`,
`storedMode`, `psi_ic`) are shallow embeddings of the scan-loop code in the
notebook; floating-point arrays are modelled as lists of rationals.  The
engine itself (TokaMaker) is an external library whose code is not part of
this repository, so its operations are modelled from the specification; each
such definition carries a doc comment starting with `Modelled from the spec`.
-/

/-- Values of a nodal field at the mesh nodes whose vertical coordinate is
positive, in node order.  Embeds the driver's `eig_vecs[0, mygs.r[:,1]>0.0]`
boolean-mask indexing, where the second argument is the node Z-coordinate
array `mygs.r[:,1]`. -/
def zposVals : List ℚ → List ℚ → List ℚ
  | [], _ => []
  | _, [] => []
  | x :: v, b :: z => if 0 < b then x :: zposVals v z else zposVals v z

/-- Index of the first entry of maximal absolute value; embeds numpy's
`abs(w).argmax()` (first occurrence of the maximum wins). -/
def argmaxAbs : List ℚ → ℕ
  | [] => 0
  | x :: xs => if |xs.getD (argmaxAbs xs) 0| ≤ |x| then 0 else argmaxAbs xs + 1

/-- The driver's sign reference
`eig_sign = eig_vecs[0,mygs.r[:,1]>0.0][abs(eig_vecs[0,mygs.r[:,1]>0.0]).argmax()]`:
the value of the leading eigenvector at the node of maximal magnitude among
the nodes with Z > 0 (and 0 when no node has Z > 0, matching `getD`'s
out-of-range default). -/
def eig_sign (v z : List ℚ) : ℚ :=
  (zposVals v z).getD (argmaxAbs (zposVals v z)) 0

/-- The mode stored by the driver in each scan iteration:
`modes.append(eig_vecs[0,:]*eig_sign)`. -/
def storedMode (v z : List ℚ) : List ℚ :=
  v.map (fun x => x * eig_sign v z)

/-- The driver's perturbed initial condition
`psi_ic = psi0 - 0.01*eig_vecs[0,:]*(mygs.psi_bounds[1]-mygs.psi_bounds[0])/eig_sign`,
with `pb` the pair `psi_bounds`. -/
def psi_ic (psi0 v z : List ℚ) (pb : ℚ × ℚ) : List ℚ :=
  List.zipWith (fun p x => p - (1 / 100) * x * (pb.2 - pb.1) / eig_sign v z) psi0 v

section SortKey

variable {α : Type}

/-- Insert an element into a list kept ascending by the rational key `key`. -/
def insertKey (key : α → ℚ) (x : α) : List α → List α
  | [] => [x]
  | y :: ys => if key x ≤ key y then x :: y :: ys else y :: insertKey key x ys

/-- Insertion sort, ascending by the rational key `key`. -/
def sortKey (key : α → ℚ) : List α → List α
  | [] => []
  | x :: xs => insertKey key x (sortKey key xs)

end SortKey

namespace TokaMaker

/-- Error taxonomy of the engine (spec 7): singular constraint system,
degenerate `psi_bounds`, exhausted time-step retries. -/
inductive EngineError
  | singularSystem
  | degenerateBounds
  | stepFailed
deriving DecidableEq

/-- An eigenvalue (real part, imaginary part) paired with its eigenvector
flux-perturbation field. -/
abbrev EigPair := (ℚ × ℚ) × List ℚ

/-- Modelled from the spec: `eig_td(shift, n, flag)` of the Linear Stability
Engine (4.4), whose code is not in this repository.  The linearized operator's
spectrum is an explicit argument; the solver picks the `n` eigenvalues nearest
the shift `sigma` (squared complex distance) and returns them sorted by
descending real part, each paired with its eigenvector. -/
def eig_td (sigma : ℚ) (n : ℕ) (_flag : Bool) (spectrum : List EigPair) :
    List EigPair :=
  sortKey (fun e => -e.1.1)
    ((sortKey (fun e => (e.1.1 - sigma) ^ 2 + e.1.2 ^ 2) spectrum).take n)

/-- Maximum absolute componentwise change between two flux iterates; the
residual of the Picard loop (spec 4.3 step (e)). -/
def maxAbsDiff (a b : List ℚ) : ℚ :=
  (List.zipWith (fun x y => |x - y|) a b).foldr max 0

/-- The default convergence tolerance of `solve()` (spec 4.3). -/
def default_tol : ℚ := 1 / 1000000

/-- Modelled from the spec: the Picard iteration of the Nonlinear Equilibrium
Solver (4.3), whose code is not in this repository.  One combined Picard
update (plasma current evaluation, constraint solve, elliptic solve) is the
abstract map `upd`; the loop runs until the residual drops below `tol` or the
iteration cap is exhausted, returning `(err_flag, final psi)`. -/
def solve_loop (upd : List ℚ → List ℚ) (tol : ℚ) : ℕ → List ℚ → ℤ × List ℚ
  | 0, psi => (1, psi)
  | fuel + 1, psi =>
    let next := upd psi
    if maxAbsDiff psi next < tol then (0, next)
    else solve_loop upd tol fuel next

/-- Modelled from the spec: `solve()` (4.3) with iteration cap `maxits`,
starting from the initialized flux `psi`. -/
def solve (upd : List ℚ → List ℚ) (tol : ℚ) (maxits : ℕ) (psi : List ℚ) :
    ℤ × List ℚ :=
  solve_loop upd tol maxits psi

/-- Engine state visible to the driver: flux field, `psi_bounds`
`(psi_axis, psi_boundary)`, and the last convergence flag. -/
structure GSState where
  psi : List ℚ
  psi_bounds : ℚ × ℚ
  err_flag : ℤ
deriving DecidableEq

/-- Modelled from the spec: recomputation of the psi normalization bounds
(4.3 step (d) and error taxonomy 7): axis and boundary flux are produced by
the field-null search (abstracted as `axisOf` / `boundOf`); equal values are
a fatal numerical-degeneracy error, never a returned state. -/
def computeBounds (axisOf boundOf : List ℚ → ℚ) (psi : List ℚ) :
    Except EngineError (ℚ × ℚ) :=
  if axisOf psi = boundOf psi then .error .degenerateBounds
  else .ok (axisOf psi, boundOf psi)

/-- Modelled from the spec: a full `solve()` call publishing the engine state,
including the recomputed `psi_bounds` (4.3); degenerate bounds abort with a
fatal error instead of publishing a state. -/
def solve_full (upd : List ℚ → List ℚ) (axisOf boundOf : List ℚ → ℚ)
    (tol : ℚ) (maxits : ℕ) (psi : List ℚ) : Except EngineError GSState :=
  let r := solve upd tol maxits psi
  match computeBounds axisOf boundOf r.2 with
  | .error e => .error e
  | .ok pb => .ok ⟨r.2, pb, r.1⟩

/-- Modelled from the spec: `get_psi(normalized)` (6), a read-only snapshot of
the flux field, normalized to psi-hat via `psi_bounds` when requested. -/
def get_psi (s : GSState) (normalized : Bool) : List ℚ :=
  if normalized then
    s.psi.map (fun p => (p - s.psi_bounds.1) / (s.psi_bounds.2 - s.psi_bounds.1))
  else s.psi

/-- Modelled from the spec: `set_psi(field)` (6), overwriting the stored flux
field and touching nothing else. -/
def set_psi (s : GSState) (v : List ℚ) : GSState := { s with psi := v }

/-- Modelled from the spec: the retry loop inside `step_td` (4.5): attempt a
sub-step of size `dt` (convergence of the nonlinear sub-iteration abstracted
as the predicate `conv`); on failure retry with `dt` halved, up to `budget`
retries, counting retries; exhaustion is a fatal step failure.  On success
returns the advanced time and the retry count. -/
def stepAttempt (conv : ℚ → Bool) : ℕ → ℚ → ℚ → ℕ → Except EngineError (ℚ × ℕ)
  | budget, time, dt, nretry =>
    if conv dt then .ok (time + dt, nretry)
    else
      match budget with
      | 0 => .error .stepFailed
      | b + 1 => stepAttempt conv b time (dt / 2) (nretry + 1)

/-- Modelled from the spec: `step_td(time, dt)` (4.5, 6), returning, in order,
the new simulation time, the step error indicator, the nonlinear-iteration
count, the linear-iteration count, and the retry count; the iteration counts
of the converged sub-step are abstracted as `nl_its` and `lin_its`. -/
def step_td (conv : ℚ → Bool) (nl_its lin_its : ℕ) (maxretry : ℕ)
    (time dt : ℚ) : Except EngineError (ℚ × ℤ × ℕ × ℕ × ℕ) :=
  match stepAttempt conv maxretry time dt 0 with
  | .ok (t, r) => .ok (t, 0, nl_its, lin_its, r)
  | .error e => .error e

/-- Modelled from the spec: the isoflux block of the Constraint Assembler
(4.2): for each isoflux point beyond the first, one row requiring the
difference of the coil flux responses (`resp`) at the point and at the first
point to vanish; an empty point list contributes no rows. -/
def isoRows (resp : ℚ × ℚ → List ℚ) : List (ℚ × ℚ) → List (List ℚ)
  | [] => []
  | p0 :: rest => rest.map (fun p => List.zipWith (fun a b => a - b) (resp p) (resp p0))

/-- Modelled from the spec: the saddle block of the Constraint Assembler
(4.2): per saddle point, one row for each poloidal field component response
(`brResp`, `bzResp`) required to vanish. -/
def saddleRows (brResp bzResp : ℚ × ℚ → List ℚ) (pts : List (ℚ × ℚ)) :
    List (List ℚ) :=
  pts.foldr (fun p acc => brResp p :: bzResp p :: acc) []

/-- Modelled from the spec: the regularization block (4.2): each term is a
coil coefficient row scaled by its weight. -/
def regRows (reg : List (List ℚ × ℚ)) : List (List ℚ) :=
  reg.map (fun t => t.1.map (fun c => t.2 * c))

/-- Modelled from the spec: assembly of the constraint system rows (4.2), in
block order isoflux, saddle, global, regularization; a disabled (`none`)
shape-constraint set contributes no rows at all. -/
def assemble_system (resp brResp bzResp : ℚ × ℚ → List ℚ)
    (iso sad : Option (List (ℚ × ℚ))) (glob : List (List ℚ))
    (reg : List (List ℚ × ℚ)) : List (List ℚ) :=
  (match iso with
   | none => []
   | some pts => isoRows resp pts) ++
  (match sad with
   | none => []
   | some pts => saddleRows brResp bzResp pts) ++
  glob ++ regRows reg

/-- One Gaussian elimination step: eliminate the leading column of row `r`
against the pivot row `p` (whose head is nonzero) and drop that column. -/
def elimRow (p r : List ℚ) : List ℚ :=
  (List.zipWith (fun a b => a - r.headD 0 / p.headD 0 * b) r p).tail

/-- First row with a nonzero leading entry, if any. -/
def pivotRow (rows : List (List ℚ)) : Option (List ℚ) :=
  rows.find? (fun r => !(decide (r.headD 0 = 0)))

/-- Column-count-fuelled Gaussian elimination rank of a rational matrix given
as a list of rows. -/
def rank_aux : ℕ → List (List ℚ) → ℕ
  | 0, _ => 0
  | w + 1, rows =>
    match pivotRow rows with
    | none => rank_aux w (rows.map List.tail)
    | some p => 1 + rank_aux w ((rows.erase p).map (elimRow p))

/-- Rank of a rational matrix (rows as lists), via Gaussian elimination. -/
def rank (rows : List (List ℚ)) : ℕ :=
  rank_aux (rows.foldr (fun r m => max r.length m) 0) rows

/-- Modelled from the spec: the least-squares coil-current solve of the
Constraint Assembler (4.2): a system whose rank is below the number of coil
unknowns fails with a SingularSystem error, a full-rank system solves. -/
def solve_constraints (rows : List (List ℚ)) (ncoils : ℕ) :
    Except EngineError Unit :=
  if rank rows = ncoils then .ok () else .error .singularSystem

end TokaMaker

/-- Modelled from the spec: `create_power_flux_fun` of the Profile Functions
component (4.1), whose code is not in this repository: an `npts`-point
piecewise-linear table of knots `(x, ((1-x)^alpha)^gamma)` with `x` sampled
uniformly over the normalized-flux interval `[0,1]`; a pure data transform.
The two exponents are arbitrary nonnegative reals (the driver passes
`alpha = 1.5`), so the powers are real `rpow` and the table lives in `ℝ`. -/
noncomputable def create_power_flux_fun (npts : ℕ) (alpha gamma : ℝ) :
    List (ℝ × ℝ) :=
  (List.range npts).map (fun i : ℕ =>
    ((i : ℝ) / ((npts - 1 : ℕ) : ℝ),
      ((1 - (i : ℝ) / ((npts - 1 : ℕ) : ℝ)) ^ alpha) ^ gamma))

/-- The seven properties of the generated profile table claimed for
`create_power_flux_fun npts alpha gamma`: `npts` knots; strictly increasing
abscissae running from 0 to 1; ordinates that start at 1, are non-increasing,
and stay within `[0, 1]` (finite and well-defined at both endpoints). -/
def power_flux_table_props (npts : ℕ) (alpha gamma : ℝ) : Prop :=
  (create_power_flux_fun npts alpha gamma).length = npts ∧
  (∀ i j, i < j → j < npts →
    ((create_power_flux_fun npts alpha gamma).getD i (0, 0)).1 <
      ((create_power_flux_fun npts alpha gamma).getD j (0, 0)).1) ∧
  ((create_power_flux_fun npts alpha gamma).getD 0 (0, 0)).1 = 0 ∧
  ((create_power_flux_fun npts alpha gamma).getD (npts - 1) (0, 0)).1 = 1 ∧
  ((create_power_flux_fun npts alpha gamma).getD 0 (0, 0)).2 = 1 ∧
  (∀ i j, i ≤ j → j < npts →
    ((create_power_flux_fun npts alpha gamma).getD j (0, 0)).2 ≤
      ((create_power_flux_fun npts alpha gamma).getD i (0, 0)).2) ∧
  (∀ i, i < npts →
    0 ≤ ((create_power_flux_fun npts alpha gamma).getD i (0, 0)).2 ∧
      ((create_power_flux_fun npts alpha gamma).getD i (0, 0)).2 ≤ 1)

/-- A three-mode sample spectrum used to instantiate the eigensolver model. -/
def sampleSpectrum : List TokaMaker.EigPair :=
  [((1, 0), [1]), ((3, 0), [0, 1]), ((2, 0), [1, 1])]

/-- A sample global-constraint row block (one plasma-current row over two
coils). -/
def sampleGlob : List (List ℚ) := [[1, 1]]

/-- A sample regularization set: one unit-weight amplitude term per coil. -/
def sampleReg : List (List ℚ × ℚ) := [([1, 0], 1), ([0, 1], 1)]

/-! ## Helper lemmas -/

theorem getD_map_zero (f : ℚ → ℚ) (hf : f 0 = 0) :
    ∀ (l : List ℚ) (i : ℕ), (l.map f).getD i 0 = f (l.getD i 0)
  | [], _ => by simp [hf]
  | _ :: _, 0 => by simp
  | _ :: l, i + 1 => by simpa using getD_map_zero f hf l i

theorem zposVals_map (f : ℚ → ℚ) (v z : List ℚ) :
    zposVals (v.map f) z = (zposVals v z).map f := by
  induction v generalizing z with
  | nil => simp [zposVals]
  | cons x v ih =>
    cases z with
    | nil => simp [zposVals]
    | cons b z =>
      by_cases hb : 0 < b <;> simp [zposVals, hb, ih]

theorem argmaxAbs_map (f : ℚ → ℚ) (k : ℚ) (hk : 0 < k)
    (hf : ∀ x, |f x| = |x| * k) : ∀ l : List ℚ, argmaxAbs (l.map f) = argmaxAbs l
  | [] => rfl
  | x :: l => by
    have ih := argmaxAbs_map f k hk hf l
    have hf0 : f 0 = 0 := by
      have h0 : |f 0| = 0 := by rw [hf 0, abs_zero, zero_mul]
      exact abs_eq_zero.mp h0
    have hcond : (|(l.map f).getD (argmaxAbs (l.map f)) 0| ≤ |f x|) ↔
        |l.getD (argmaxAbs l) 0| ≤ |x| := by
      rw [ih, getD_map_zero f hf0, hf, hf]
      exact mul_le_mul_right hk
    by_cases h : |l.getD (argmaxAbs l) 0| ≤ |x|
    · simp only [List.map_cons, argmaxAbs]
      rw [if_pos (hcond.mpr h), if_pos h]
    · simp only [List.map_cons, argmaxAbs]
      rw [if_neg (fun hh => h (hcond.mp hh)), if_neg h, ih]

theorem eig_sign_map (f : ℚ → ℚ) (k : ℚ) (hk : 0 < k)
    (hf : ∀ x, |f x| = |x| * k) (v z : List ℚ) :
    eig_sign (v.map f) z = f (eig_sign v z) := by
  have hf0 : f 0 = 0 := by
    have h0 : |f 0| = 0 := by rw [hf 0, abs_zero, zero_mul]
    exact abs_eq_zero.mp h0
  unfold eig_sign
  rw [zposVals_map, argmaxAbs_map f k hk hf, getD_map_zero f hf0]

theorem abs_le_sel : ∀ l : List ℚ, ∀ x ∈ l, |x| ≤ |l.getD (argmaxAbs l) 0|
  | [] => by simp
  | a :: l => by
    intro x hx
    by_cases h : |l.getD (argmaxAbs l) 0| ≤ |a|
    · have hidx : argmaxAbs (a :: l) = 0 := by
        simp only [argmaxAbs]
        rw [if_pos h]
      have hsel : (a :: l).getD (argmaxAbs (a :: l)) 0 = a := by
        rw [hidx, List.getD_cons_zero]
      rw [hsel]
      rcases List.mem_cons.mp hx with rfl | hxl
      · exact le_refl _
      · exact le_trans (abs_le_sel l x hxl) h
    · have hidx : argmaxAbs (a :: l) = argmaxAbs l + 1 := by
        simp only [argmaxAbs]
        rw [if_neg h]
      have hsel : (a :: l).getD (argmaxAbs (a :: l)) 0 = l.getD (argmaxAbs l) 0 := by
        rw [hidx, List.getD_cons_succ]
      rw [hsel]
      rcases List.mem_cons.mp hx with rfl | hxl
      · exact le_of_lt (not_le.mp h)
      · exact abs_le_sel l x hxl

theorem getD_mem_or_zero : ∀ (l : List ℚ) (i : ℕ), l.getD i 0 ∈ l ∨ l.getD i 0 = 0
  | [], _ => Or.inr rfl
  | a :: l, 0 => Or.inl (by rw [List.getD_cons_zero]; exact List.mem_cons_self a l)
  | a :: l, i + 1 => by
    rcases getD_mem_or_zero l i with h | h
    · exact Or.inl (by rw [List.getD_cons_succ]; exact List.mem_cons_of_mem a h)
    · exact Or.inr (by rw [List.getD_cons_succ]; exact h)

/-! ## Claim theorems (driver code, from source) -/

/-- C9: in each scan iteration the stored mode `eig_vecs[0]*eig_sign` and the
perturbed initial condition
`psi_ic = psi0 - 0.01*eig_vecs[0]*(psi_bounds[1]-psi_bounds[0])/eig_sign` are
unchanged when the leading eigenvector is replaced by its negation (the sign
reference `eig_sign` flips with it), and the stored mode's value at the node
of maximal magnitude among nodes with Z > 0 equals `eig_sign ^ 2`, hence is
nonnegative: downstream results are independent of the arbitrary eigenvector
sign returned by the eigensolver. -/
theorem eig_sign_canonicalization (psi0 v z : List ℚ) (pb : ℚ × ℚ) :
    eig_sign (v.map (fun x => -x)) z = -eig_sign v z ∧
    storedMode (v.map (fun x => -x)) z = storedMode v z ∧
    psi_ic psi0 (v.map (fun x => -x)) z pb = psi_ic psi0 v z pb ∧
    (zposVals (storedMode v z) z).getD (argmaxAbs (zposVals v z)) 0 =
      eig_sign v z ^ 2 ∧
    0 ≤ eig_sign v z ^ 2 := by
  have hneg : ∀ x : ℚ, |(fun x : ℚ => -x) x| = |x| * 1 := fun x => by simp
  have h1 : eig_sign (v.map (fun x => -x)) z = -eig_sign v z :=
    eig_sign_map (fun x => -x) 1 one_pos hneg v z
  refine ⟨h1, ?_, ?_, ?_, sq_nonneg _⟩
  · unfold storedMode
    rw [h1, List.map_map]
    have hfun : ((fun x => x * -eig_sign v z) ∘ fun x : ℚ => -x) =
        fun x : ℚ => x * eig_sign v z := by
      funext x
      simp [Function.comp]
    rw [hfun]
  · unfold psi_ic
    rw [h1, List.zipWith_map_right]
    have hfun : (fun p x : ℚ =>
          p - 1 / 100 * (-x) * (pb.2 - pb.1) / -eig_sign v z) =
        fun p x : ℚ => p - 1 / 100 * x * (pb.2 - pb.1) / eig_sign v z := by
      funext p x
      rw [show (1 : ℚ) / 100 * (-x) * (pb.2 - pb.1) =
        -(1 / 100 * x * (pb.2 - pb.1)) by ring, neg_div_neg_eq]
    have hzip : List.zipWith
          (fun p x : ℚ => p - 1 / 100 * (-x) * (pb.2 - pb.1) / -eig_sign v z)
          psi0 v =
        List.zipWith
          (fun p x : ℚ => p - 1 / 100 * x * (pb.2 - pb.1) / eig_sign v z)
          psi0 v := by rw [hfun]
    exact hzip
  · unfold storedMode
    rw [zposVals_map (fun x => x * eig_sign v z) v z,
      getD_map_zero (fun x => x * eig_sign v z) (by simp)]
    rw [sq]
    rfl

/-- C10: the division by `eig_sign` in the driver's perturbation
`psi_ic = psi0 - 0.01*eig_vecs[0]*(psi_bounds[1]-psi_bounds[0])/eig_sign`
is well-defined (`eig_sign ≠ 0`) exactly when the leading eigenvector is
nonzero at at least one mesh node with Z > 0, since `eig_sign` is the value
of the eigenvector at the maximum-magnitude node among nodes with Z > 0. -/
theorem eig_sign_nonzero_iff (v z : List ℚ) :
    eig_sign v z ≠ 0 ↔ ∃ x ∈ zposVals v z, x ≠ 0 := by
  constructor
  · intro hs
    rcases getD_mem_or_zero (zposVals v z) (argmaxAbs (zposVals v z)) with h | h
    · exact ⟨_, h, hs⟩
    · exact absurd h hs
  · rintro ⟨x, hx, hx0⟩
    have h1 : |x| ≤ |eig_sign v z| := abs_le_sel (zposVals v z) x hx
    intro h0
    rw [h0, abs_zero] at h1
    exact hx0 (abs_nonpos_iff.mp h1)

theorem length_insertKey {α : Type} (key : α → ℚ) (x : α) :
    ∀ l : List α, (insertKey key x l).length = l.length + 1
  | [] => rfl
  | y :: ys => by
    simp only [insertKey]
    by_cases h : key x ≤ key y
    · rw [if_pos h]
      rfl
    · rw [if_neg h, List.length_cons, List.length_cons, length_insertKey key x ys]

theorem length_sortKey {α : Type} (key : α → ℚ) :
    ∀ l : List α, (sortKey key l).length = l.length
  | [] => rfl
  | x :: xs => by
    simp only [sortKey]
    rw [length_insertKey, length_sortKey key xs, List.length_cons]

theorem mem_insertKey {α : Type} (key : α → ℚ) (x y : α) :
    ∀ l : List α, y ∈ insertKey key x l ↔ y = x ∨ y ∈ l
  | [] => by simp [insertKey]
  | a :: l => by
    simp only [insertKey]
    by_cases h : key x ≤ key a
    · rw [if_pos h, List.mem_cons]
    · rw [if_neg h, List.mem_cons, mem_insertKey key x y l, List.mem_cons]
      tauto

theorem pairwise_insertKey {α : Type} (key : α → ℚ) (x : α) :
    ∀ l : List α, l.Pairwise (fun a b => key a ≤ key b) →
      (insertKey key x l).Pairwise (fun a b => key a ≤ key b)
  | [], _ => by simp [insertKey]
  | y :: ys, h => by
    simp only [insertKey]
    by_cases hxy : key x ≤ key y
    · rw [if_pos hxy]
      refine List.Pairwise.cons ?_ h
      intro z hz
      rcases List.mem_cons.mp hz with rfl | hzy
      · exact hxy
      · exact le_trans hxy (List.rel_of_pairwise_cons h hzy)
    · rw [if_neg hxy]
      refine List.Pairwise.cons ?_ (pairwise_insertKey key x ys (List.Pairwise.of_cons h))
      intro z hz
      rcases (mem_insertKey key x z ys).mp hz with rfl | hzy
      · exact le_of_not_le hxy
      · exact List.rel_of_pairwise_cons h hzy

theorem pairwise_sortKey {α : Type} (key : α → ℚ) :
    ∀ l : List α, (sortKey key l).Pairwise (fun a b => key a ≤ key b)
  | [] => List.Pairwise.nil
  | x :: xs => pairwise_insertKey key x _ (pairwise_sortKey key xs)

theorem headD_rel {α : Type} (R : α → α → Prop) (hrefl : ∀ a, R a a) :
    ∀ l : List α, l.Pairwise R → ∀ e ∈ l, R (l.headD e) e
  | [], _, e, he => absurd he (List.not_mem_nil e)
  | x :: xs, h, e, he => by
    rcases List.mem_cons.mp he with rfl | hxs
    · exact hrefl e
    · exact List.rel_of_pairwise_cons h hxs

/-- C1: `eig_td(shift, n, flag)` on a (converged-equilibrium) operator
spectrum with at least `n` modes returns exactly `n` eigenvalues sorted by
descending real part — the head's real part bounds every returned real part
from above — each paired with its eigenvector flux-perturbation field. -/
theorem eig_td_sorted_count (sigma : ℚ) (n : ℕ) (flag : Bool)
    (spectrum : List TokaMaker.EigPair) (h : n ≤ spectrum.length) :
    (TokaMaker.eig_td sigma n flag spectrum).length = n ∧
    (TokaMaker.eig_td sigma n flag spectrum).Pairwise (fun a b => b.1.1 ≤ a.1.1) ∧
    ∀ e ∈ TokaMaker.eig_td sigma n flag spectrum,
      e.1.1 ≤ ((TokaMaker.eig_td sigma n flag spectrum).headD e).1.1 := by
  have hpair : (TokaMaker.eig_td sigma n flag spectrum).Pairwise
      (fun a b => b.1.1 ≤ a.1.1) := by
    refine List.Pairwise.imp ?_
      (pairwise_sortKey (fun e : TokaMaker.EigPair => -e.1.1) _)
    intro a b hab
    exact neg_le_neg_iff.mp hab
  refine ⟨?_, hpair, ?_⟩
  · unfold TokaMaker.eig_td
    rw [length_sortKey, List.length_take, length_sortKey, min_eq_left h]
  · exact headD_rel (fun a b : TokaMaker.EigPair => b.1.1 ≤ a.1.1)
      (fun a => le_refl a.1.1) _ hpair

/-- Closed witness for C1 at a concrete three-mode spectrum with `n = 2`. -/
theorem eig_td_sorted_count_witness :
    2 ≤ sampleSpectrum.length ∧
    ((TokaMaker.eig_td 0 2 false sampleSpectrum).length = 2 ∧
      (TokaMaker.eig_td 0 2 false sampleSpectrum).Pairwise
        (fun a b => b.1.1 ≤ a.1.1) ∧
      ∀ e ∈ TokaMaker.eig_td 0 2 false sampleSpectrum,
        e.1.1 ≤ ((TokaMaker.eig_td 0 2 false sampleSpectrum).headD e).1.1) :=
  ⟨by decide, eig_td_sorted_count 0 2 false sampleSpectrum (by decide)⟩

/-- C2: for every configuration (Picard update map, tolerance, iteration cap)
and initialized flux field, `solve()` is a total function that either
converges — error flag 0 with the final iterate's residual below the
tolerance — or reports non-convergence through a nonzero error flag while the
flux field retains the last computed iterate (the `maxits`-fold update of the
initial field), never by raising an exception. -/
theorem solve_status (upd : List ℚ → List ℚ) (tol : ℚ) (maxits : ℕ)
    (psi : List ℚ) :
    ((TokaMaker.solve upd tol maxits psi).1 = 0 ∧
      ∃ prev, (TokaMaker.solve upd tol maxits psi).2 = upd prev ∧
        TokaMaker.maxAbsDiff prev (upd prev) < tol) ∨
    ((TokaMaker.solve upd tol maxits psi).1 ≠ 0 ∧
      (TokaMaker.solve upd tol maxits psi).2 = upd^[maxits] psi) := by
  unfold TokaMaker.solve
  induction maxits generalizing psi with
  | zero =>
    right
    refine ⟨?_, ?_⟩
    · simp [TokaMaker.solve_loop]
    · simp [TokaMaker.solve_loop]
  | succ k ih =>
    by_cases h : TokaMaker.maxAbsDiff psi (upd psi) < tol
    · left
      refine ⟨by simp [TokaMaker.solve_loop, h], psi, by simp [TokaMaker.solve_loop, h], h⟩
    · have heq : TokaMaker.solve_loop upd tol (k + 1) psi =
          TokaMaker.solve_loop upd tol k (upd psi) := by
        simp [TokaMaker.solve_loop, h]
      rw [heq]
      rcases ih (upd psi) with hl | hr
      · exact Or.inl hl
      · refine Or.inr ⟨hr.1, ?_⟩
        rw [hr.2]
        exact (Function.iterate_succ_apply upd k psi).symm

/-- C6: for every engine state, the round trip
`set_psi (get_psi normalized=False)` restores exactly the same state: the raw
snapshot is the stored flux field, and overwriting the field with it changes
nothing. -/
theorem get_set_psi_roundtrip (s : TokaMaker.GSState) :
    TokaMaker.set_psi s (TokaMaker.get_psi s false) = s := by
  cases s
  rfl

/-- C7: whenever a `solve()` call publishes an engine state (an equilibrium
exists), the stored `psi_bounds` components differ: a degenerate boundary
(axis flux equal to boundary flux) is a fatal error and never a returned
state, so the difference `psi_bounds[1] - psi_bounds[0]` used by callers is
nonzero. -/
theorem psi_bounds_nondegenerate (upd : List ℚ → List ℚ)
    (axisOf boundOf : List ℚ → ℚ) (tol : ℚ) (maxits : ℕ) (psi : List ℚ)
    (st : TokaMaker.GSState)
    (h : TokaMaker.solve_full upd axisOf boundOf tol maxits psi = Except.ok st) :
    st.psi_bounds.1 ≠ st.psi_bounds.2 := by
  unfold TokaMaker.solve_full at h
  by_cases hd : axisOf (TokaMaker.solve upd tol maxits psi).2 =
      boundOf (TokaMaker.solve upd tol maxits psi).2
  · simp [TokaMaker.computeBounds, hd] at h
  · simp only [TokaMaker.computeBounds, hd, if_neg, ite_false] at h
    injection h with h2
    rw [← h2]
    exact hd

/-- Closed witness for C7: a concrete one-iteration converged solve publishing
bounds `(0, 1)`. -/
theorem psi_bounds_nondegenerate_witness :
    TokaMaker.solve_full id (fun _ => 0) (fun _ => 1) 1 1 [0] =
      Except.ok (TokaMaker.GSState.mk [0] (0, 1) 0) ∧
    (TokaMaker.GSState.mk [0] (0, 1) 0).psi_bounds.1 ≠
      (TokaMaker.GSState.mk [0] (0, 1) 0).psi_bounds.2 := by
  have heval : TokaMaker.solve_full id (fun _ => 0) (fun _ => 1) 1 1 [0] =
      Except.ok (TokaMaker.GSState.mk [0] (0, 1) 0) := by
    norm_num [TokaMaker.solve_full, TokaMaker.solve, TokaMaker.solve_loop,
      TokaMaker.maxAbsDiff, TokaMaker.computeBounds]
  exact ⟨heval, psi_bounds_nondegenerate id _ _ 1 1 [0] _ heval⟩

theorem stepAttempt_ok (conv : ℚ → Bool) :
    ∀ (budget : ℕ) (time dt : ℚ) (nr : ℕ) (t : ℚ) (r : ℕ),
      TokaMaker.stepAttempt conv budget time dt nr = Except.ok (t, r) →
      nr ≤ r ∧ t = time + dt / 2 ^ (r - nr) := by
  intro budget
  induction budget with
  | zero =>
    intro time dt nr t r h
    by_cases hc : conv dt
    · simp [TokaMaker.stepAttempt, hc] at h
      obtain ⟨ht, hr⟩ := h
      subst hr
      refine ⟨le_refl nr, ?_⟩
      rw [← ht]
      norm_num
    · simp [TokaMaker.stepAttempt, hc] at h
  | succ b ih =>
    intro time dt nr t r h
    by_cases hc : conv dt
    · simp [TokaMaker.stepAttempt, hc] at h
      obtain ⟨ht, hr⟩ := h
      subst hr
      refine ⟨le_refl nr, ?_⟩
      rw [← ht]
      norm_num
    · rw [TokaMaker.stepAttempt, if_neg hc] at h
      have h2 : TokaMaker.stepAttempt conv b time (dt / 2) (nr + 1) =
          Except.ok (t, r) := h
      obtain ⟨hle, ht⟩ := ih time (dt / 2) (nr + 1) t r h2
      refine ⟨by omega, ?_⟩
      rw [ht]
      have hk : r - nr = r - (nr + 1) + 1 := by omega
      rw [hk, pow_succ, div_div, mul_comm]

/-- C3: every reported retry count of `step_td` is nonnegative, and the
simulation time advances monotonically: on success the returned time is
strictly greater than the time passed in (for positive `dt`), so repeated
calls accumulate time monotonically. -/
theorem step_td_monotone (conv : ℚ → Bool) (nl li maxr : ℕ) (time dt t : ℚ)
    (e : ℤ) (a b r : ℕ) (hdt : 0 < dt)
    (h : TokaMaker.step_td conv nl li maxr time dt = Except.ok (t, e, a, b, r)) :
    0 ≤ (r : ℤ) ∧ time < t := by
  refine ⟨by positivity, ?_⟩
  unfold TokaMaker.step_td at h
  cases hsa : TokaMaker.stepAttempt conv maxr time dt 0 with
  | ok pr =>
    obtain ⟨tp, rp⟩ := pr
    rw [hsa] at h
    simp only [Except.ok.injEq, Prod.mk.injEq] at h
    obtain ⟨ht, -, -, -, -⟩ := h
    obtain ⟨-, htt⟩ := stepAttempt_ok conv maxr time dt 0 tp rp hsa
    rw [← ht, htt]
    have hpos : 0 < dt / 2 ^ (rp - 0) := by positivity
    linarith
  | error err =>
    rw [hsa] at h
    simp at h

/-- Closed witness for C3: a concrete step with one halving retry
(`dt = 2` reduced to 1) advancing time from 0 to 1. -/
theorem step_td_monotone_witness :
    0 < (2 : ℚ) ∧
    TokaMaker.step_td (fun d => decide (d ≤ 1)) 7 9 5 0 2 =
      Except.ok (1, 0, 7, 9, 1) ∧
    (0 ≤ ((1 : ℕ) : ℤ) ∧ (0 : ℚ) < 1) := by
  have heval : TokaMaker.step_td (fun d => decide (d ≤ 1)) 7 9 5 0 2 =
      Except.ok (1, 0, 7, 9, 1) := by
    norm_num [TokaMaker.step_td, TokaMaker.stepAttempt]
  exact ⟨by norm_num, heval,
    step_td_monotone (fun d => decide (d ≤ 1)) 7 9 5 0 2 1 0 7 9 1
      (by norm_num) heval⟩

/-- C4: a successful `step_td(time, dt)` call returns the tuple
(new time, step error indicator, nonlinear-iteration count, linear-iteration
count, retry count) in that order, with error indicator 0, and the new time
is `time + dt` on a direct success (zero retries) and `time` plus the reduced
sub-step `dt / 2 ^ nretry` after retries. -/
theorem step_td_result (conv : ℚ → Bool) (nl li maxr : ℕ) (time dt t : ℚ)
    (e : ℤ) (a b r : ℕ)
    (h : TokaMaker.step_td conv nl li maxr time dt = Except.ok (t, e, a, b, r)) :
    e = 0 ∧ a = nl ∧ b = li ∧ t = time + dt / 2 ^ r ∧
      (r = 0 → t = time + dt) := by
  unfold TokaMaker.step_td at h
  cases hsa : TokaMaker.stepAttempt conv maxr time dt 0 with
  | ok pr =>
    obtain ⟨tp, rp⟩ := pr
    rw [hsa] at h
    simp only [Except.ok.injEq, Prod.mk.injEq] at h
    obtain ⟨ht, he, ha, hb, hr⟩ := h
    obtain ⟨-, htt⟩ := stepAttempt_ok conv maxr time dt 0 tp rp hsa
    subst ht he ha hb hr
    rw [Nat.sub_zero] at htt
    refine ⟨rfl, rfl, rfl, htt, ?_⟩
    intro hr0
    rw [htt, hr0]
    norm_num
  | error err =>
    rw [hsa] at h
    simp at h

/-- Closed witness for C4: the same concrete one-retry step; the returned
time equals `0 + 2 / 2 ^ 1`. -/
theorem step_td_result_witness :
    TokaMaker.step_td (fun d => decide (d ≤ 1)) 7 9 5 0 2 =
      Except.ok (1, 0, 7, 9, 1) ∧
    ((0 : ℤ) = 0 ∧ (7 : ℕ) = 7 ∧ (9 : ℕ) = 9 ∧ (1 : ℚ) = 0 + 2 / 2 ^ (1 : ℕ) ∧
      ((1 : ℕ) = 0 → (1 : ℚ) = 0 + 2)) := by
  have heval : TokaMaker.step_td (fun d => decide (d ≤ 1)) 7 9 5 0 2 =
      Except.ok (1, 0, 7, 9, 1) := by
    norm_num [TokaMaker.step_td, TokaMaker.stepAttempt]
  exact ⟨heval,
    step_td_result (fun d => decide (d ≤ 1)) 7 9 5 0 2 1 0 7 9 1 heval⟩

/-- C5: when both the isoflux and the saddle constraint sets are disabled,
the assembled constraint system consists of exactly the global and
regularization row blocks — the shape-constraint row blocks are dropped
entirely, not zero-padded — and when those remaining rows have full column
rank the constraint solve succeeds instead of failing with a SingularSystem
error. -/
theorem empty_shape_constraints_solvable (resp brResp bzResp : ℚ × ℚ → List ℚ)
    (glob : List (List ℚ)) (reg : List (List ℚ × ℚ)) (ncoils : ℕ)
    (h : TokaMaker.rank (glob ++ TokaMaker.regRows reg) = ncoils) :
    TokaMaker.assemble_system resp brResp bzResp none none glob reg =
      glob ++ TokaMaker.regRows reg ∧
    TokaMaker.solve_constraints
        (TokaMaker.assemble_system resp brResp bzResp none none glob reg)
        ncoils =
      Except.ok () := by
  have hdrop : TokaMaker.assemble_system resp brResp bzResp none none glob reg =
      glob ++ TokaMaker.regRows reg := rfl
  refine ⟨hdrop, ?_⟩
  rw [hdrop]
  unfold TokaMaker.solve_constraints
  rw [if_pos h]

/-- Closed witness for C5: one global row and two unit regularization rows
over two coils give a rank-2 (full-rank) system, and the solve succeeds. -/
theorem empty_shape_constraints_solvable_witness :
    TokaMaker.rank (sampleGlob ++ TokaMaker.regRows sampleReg) = 2 ∧
    (TokaMaker.assemble_system (fun _ => []) (fun _ => []) (fun _ => [])
        none none sampleGlob sampleReg =
      sampleGlob ++ TokaMaker.regRows sampleReg ∧
    TokaMaker.solve_constraints
        (TokaMaker.assemble_system (fun _ => []) (fun _ => []) (fun _ => [])
          none none sampleGlob sampleReg) 2 =
      Except.ok ()) := by
  have hrank : TokaMaker.rank (sampleGlob ++ TokaMaker.regRows sampleReg) = 2 := by
    norm_num [sampleGlob, sampleReg, TokaMaker.rank, TokaMaker.regRows,
      TokaMaker.rank_aux, TokaMaker.pivotRow, TokaMaker.elimRow, List.find?,
      List.erase]
  exact ⟨hrank,
    empty_shape_constraints_solvable (fun _ => []) (fun _ => []) (fun _ => [])
      sampleGlob sampleReg 2 hrank⟩

theorem cpff_getD (npts : ℕ) (alpha gamma : ℝ) (i : ℕ) (hi : i < npts) :
    (create_power_flux_fun npts alpha gamma).getD i (0, 0) =
      ((i : ℝ) / ((npts - 1 : ℕ) : ℝ),
        ((1 - (i : ℝ) / ((npts - 1 : ℕ) : ℝ)) ^ alpha) ^ gamma) := by
  unfold create_power_flux_fun
  rw [List.getD_eq_getElem?_getD, List.getElem?_map, List.getElem?_range hi]
  rfl

theorem cpff_getD_fst (npts : ℕ) (alpha gamma : ℝ) (i : ℕ) (hi : i < npts) :
    ((create_power_flux_fun npts alpha gamma).getD i (0, 0)).1 =
      (i : ℝ) / ((npts - 1 : ℕ) : ℝ) := by
  rw [cpff_getD npts alpha gamma i hi]

theorem cpff_getD_snd (npts : ℕ) (alpha gamma : ℝ) (i : ℕ) (hi : i < npts) :
    ((create_power_flux_fun npts alpha gamma).getD i (0, 0)).2 =
      ((1 - (i : ℝ) / ((npts - 1 : ℕ) : ℝ)) ^ alpha) ^ gamma := by
  rw [cpff_getD npts alpha gamma i hi]

/-- C8: for every sample count `npts ≥ 2` and every pair of real exponents
`alpha, gamma ≥ 0`, `create_power_flux_fun` returns an `npts`-knot
piecewise-linear table over normalized flux `[0, 1]` for
`((1 - x) ^ alpha) ^ gamma` (real powers) whose abscissae increase strictly
from 0 to 1 and whose ordinates start at 1, are non-increasing, and stay
within `[0, 1]` — finite and well-defined at both endpoints; the generator
is a pure data transform of its arguments with no solver state to mutate. -/
theorem create_power_flux_fun_table (npts : ℕ) (alpha gamma : ℝ)
    (h : 2 ≤ npts) (ha : 0 ≤ alpha) (hg : 0 ≤ gamma) :
    power_flux_table_props npts alpha gamma := by
  have hden : (0 : ℝ) < ((npts - 1 : ℕ) : ℝ) := by
    have h1 : 0 < npts - 1 := by omega
    exact_mod_cast h1
  have hxle : ∀ i : ℕ, i < npts → (i : ℝ) / ((npts - 1 : ℕ) : ℝ) ≤ 1 := by
    intro i hi
    rw [div_le_one hden]
    have h2 : i ≤ npts - 1 := by omega
    exact_mod_cast h2
  have hxnn : ∀ i : ℕ, (0 : ℝ) ≤ (i : ℝ) / ((npts - 1 : ℕ) : ℝ) := by
    intro i
    positivity
  refine ⟨?_, ?_, ?_, ?_, ?_, ?_, ?_⟩
  · unfold create_power_flux_fun
    rw [List.length_map, List.length_range]
  · intro i j hij hj
    rw [cpff_getD_fst npts alpha gamma i (lt_trans hij hj),
      cpff_getD_fst npts alpha gamma j hj]
    have hc : (i : ℝ) < (j : ℝ) := by exact_mod_cast hij
    exact div_lt_div_of_pos_right hc hden
  · rw [cpff_getD_fst npts alpha gamma 0 (by omega)]
    norm_num
  · rw [cpff_getD_fst npts alpha gamma (npts - 1) (by omega)]
    exact div_self (ne_of_gt hden)
  · rw [cpff_getD_snd npts alpha gamma 0 (by omega)]
    norm_num [Real.one_rpow]
  · intro i j hij hj
    rw [cpff_getD_snd npts alpha gamma i (by omega),
      cpff_getD_snd npts alpha gamma j hj]
    have hc : (i : ℝ) ≤ (j : ℝ) := by exact_mod_cast hij
    have hstep : (i : ℝ) / ((npts - 1 : ℕ) : ℝ) ≤ (j : ℝ) / ((npts - 1 : ℕ) : ℝ) := by
      gcongr
    have hbase : (1 : ℝ) - (j : ℝ) / ((npts - 1 : ℕ) : ℝ) ≤
        1 - (i : ℝ) / ((npts - 1 : ℕ) : ℝ) := by linarith
    have h0 : (0 : ℝ) ≤ 1 - (j : ℝ) / ((npts - 1 : ℕ) : ℝ) :=
      sub_nonneg.mpr (hxle j hj)
    exact Real.rpow_le_rpow (Real.rpow_nonneg h0 alpha)
      (Real.rpow_le_rpow h0 hbase ha) hg
  · intro i hi
    rw [cpff_getD_snd npts alpha gamma i hi]
    have h0 : (0 : ℝ) ≤ 1 - (i : ℝ) / ((npts - 1 : ℕ) : ℝ) :=
      sub_nonneg.mpr (hxle i hi)
    refine ⟨Real.rpow_nonneg (Real.rpow_nonneg h0 alpha) gamma, ?_⟩
    have h1 : (1 : ℝ) - (i : ℝ) / ((npts - 1 : ℕ) : ℝ) ≤ 1 := by
      have := hxnn i
      linarith
    exact Real.rpow_le_one (Real.rpow_nonneg h0 alpha)
      (Real.rpow_le_one h0 h1 ha) hg

/-- Closed witness for C8 at `npts = 3` and the driver's non-integer
exponent pair: `alpha = 3/2` (the notebook's 1.5) and `gamma = 2`. -/
theorem create_power_flux_fun_table_witness :
    2 ≤ 3 ∧ (0 : ℝ) ≤ 3 / 2 ∧ (0 : ℝ) ≤ 2 ∧
      power_flux_table_props 3 (3 / 2) 2 :=
  ⟨by decide, by norm_num, by norm_num,
    create_power_flux_fun_table 3 (3 / 2) 2 (by decide) (by norm_num)
      (by norm_num)⟩
